import Mathlib

/-!
# Verification of the netease playlist deduplication engine

A shallow embedding of the core logic of `src/main.py` (a pandas-based
playlist reconciliation tool) together with proofs about the claims of its
specification.

Modelling conventions:
* A pandas `DataFrame` of track records is a `List Track`; row order is list
  order, and every pandas operation used by the code (`filter`/`isin`,
  `merge`, `drop_duplicates`, `duplicated`, `sort_values`, `concat`) is
  translated to the corresponding order-preserving list operation.
* Python strings are Lean `String`s (lists of unicode code points, compared
  by code point exactly as Python compares them).  `str.lower` is modelled
  by `Char.toLower`, which performs the ASCII case mapping; the claims under
  study only exercise characters whose Python lowercase agrees with it.
* The regex `\s*[（(].*?[）)]` of `normalize_title` together with `re.sub`'s
  left-to-right scan-and-replace loop is modelled explicitly by `subParens`
  below: whitespace (`pyIsSpace`, the ASCII core of Python `\s`) directly
  preceding an opening paren is consumed, `.` does not match a newline, and
  the lazy `.*?` stops at the nearest closing paren.
* Python `set` iteration order is unspecified; wherever the source iterates
  over a set (`common_ids` in `logic_fuzzy_intersection`) the model fixes
  the order of first occurrence.  No claim under study depends on that
  order.  Set intersection values are modelled by deduplicated lists.
* Functions defined by a fuel parameter (`subParensF`, `replaceAllF`) use
  fuel equal to the length of the scanned list, which the accompanying
  lemmas show is always sufficient; the fuel only serves to make the
  definitions structurally recursive and hence kernel-computable.
-/

/-- ASCII core of Python's `\s` class and of `str.strip`'s default set. -/
def pyIsSpace (c : Char) : Bool :=
  c = ' ' || c = '\t' || c = '\n' || c = '\r' || c = '\x0b' || c = '\x0c'

/-- Opening parenthesis of the regex class `[（(]`. -/
def isOpenParen (c : Char) : Bool :=
  c = '(' || c = '（'

/-- Closing parenthesis of the regex class `[）)]`. -/
def isCloseParen (c : Char) : Bool :=
  c = ')' || c = '）'

/-- The lazy `.*?[）)]` part of the paren regex: scan forward for the nearest
closing paren; `.` does not match a newline, so a newline kills the match.
Returns the remainder of the list after the closing paren. -/
def findClose : List Char → Option (List Char)
  | [] => none
  | c :: cs =>
    if isCloseParen c then some cs
    else if c = '\n' then none
    else findClose cs

/-- One attempt of the regex `\s*[（(].*?[）)]` anchored at the current scan
position: greedily consume whitespace, require an opening paren, then find
the nearest closing paren.  Returns the remainder after the match. -/
def tryParenMatch (cs : List Char) : Option (List Char) :=
  match cs.dropWhile pyIsSpace with
  | [] => none
  | o :: rest => if isOpenParen o then findClose rest else none

/-- Fuel-indexed model of `re.sub(r'\s*[（(].*?[）)]', '', core)`: scan left to
right; at each position either remove a whole match or keep one character.
With fuel at least the length of the list the fuel never runs out. -/
def subParensF : Nat → List Char → List Char
  | _, [] => []
  | 0, c :: cs => c :: cs
  | f + 1, c :: cs =>
    match tryParenMatch (c :: cs) with
    | some rest => subParensF f rest
    | none => c :: subParensF f cs

/-- `re.sub(r'\s*[（(].*?[）)]', '', core)` from `normalize_title`. -/
def subParens (cs : List Char) : List Char :=
  subParensF cs.length cs

/-- Python `str.strip()` on a list of characters. -/
def pyStrip (cs : List Char) : List Char :=
  ((cs.dropWhile pyIsSpace).reverse.dropWhile pyIsSpace).reverse

/-- `if '-' in core: core = core.split('-')[0]` from `normalize_title`. -/
def hyphenCut (cs : List Char) : List Char :=
  if '-' ∈ cs then cs.takeWhile (fun c => c != '-') else cs

/-- `normalize_title` from `src/main.py` (title taken as a string; the
Python function maps every non-string input to `""` before this code path):
lowercase, strip parentheticals, keep the part before the first hyphen,
trim whitespace. -/
def normalize_title (title : String) : String :=
  String.mk (pyStrip (hyphenCut (subParens (title.data.map Char.toLower))))

/-- The regex `id=(\d+)` applied by `re.search`: leftmost occurrence of
`id=` followed by at least one digit; the group is the maximal digit run.
On a failed attempt the scan restarts one character further right. -/
def findIdNum : List Char → Option (List Char)
  | 'i' :: 'd' :: '=' :: rest =>
    let ds := rest.takeWhile Char.isDigit
    if ds.isEmpty then findIdNum ('d' :: '=' :: rest) else some ds
  | _ :: cs => findIdNum cs
  | [] => none

/-- `parse_id` from `src/main.py`: first try `re.search(r'id=(\d+)', url)`,
then `url.isdigit()` (true only for a non-empty all-digit string), else
reject with `None`. -/
def parse_id (url : String) : Option String :=
  match findIdNum url.data with
  | some ds => some (String.mk ds)
  | none =>
    if !url.data.isEmpty && url.data.all Char.isDigit then some url else none

/-- Pattern matching step of Python `str.replace`: if `pat` starts the list,
return the remainder after it. -/
def dropPat : List Char → List Char → Option (List Char)
  | [], rest => some rest
  | _ :: _, [] => none
  | p :: ps, c :: cs => if p = c then dropPat ps cs else none

/-- Fuel-indexed model of Python `str.replace(pat, rep)`: replace every
non-overlapping occurrence, scanning left to right.  The callers only use
non-empty patterns; fuel equal to the length of the list is sufficient
because every step consumes at least one character. -/
def replaceAllF : Nat → List Char → List Char → List Char → List Char
  | _, _, _, [] => []
  | 0, _, _, c :: cs => c :: cs
  | f + 1, pat, rep, c :: cs =>
    if pat.isEmpty then c :: cs
    else
      match dropPat pat (c :: cs) with
      | some rest => rep ++ replaceAllF f pat rep rest
      | none => c :: replaceAllF f pat rep cs

/-- Python `s.replace(pat, rep)` for a non-empty pattern. -/
def replaceAll (pat rep l : List Char) : List Char :=
  replaceAllF l.length pat rep l

/-- `name.replace("playlist_", "").replace(".csv", "")` from
`logic_fuzzy_intersection`. -/
def stripLabel (n : String) : String :=
  String.mk (replaceAll ".csv".data [] (replaceAll "playlist_".data [] n.data))

/-- One track record row as produced by the crawler: all fields are strings
(`id`, `title`, `artist`, `album`, `duration`). -/
structure Track where
  id : String
  title : String
  artist : String
  album : String
  duration : String
deriving DecidableEq, Repr

/-- The `mode` parameter of `logic_difference` and `logic_union`. -/
inductive DedupMode where
  | strict
  | fuzzy
deriving DecidableEq, Repr

/-- The deduplication key of `logic_union`/`logic_difference`: the `id`
column in strict mode, the normalized title in fuzzy mode. -/
def dedupKey (mode : DedupMode) (r : Track) : String :=
  match mode with
  | .strict => r.id
  | .fuzzy => normalize_title r.title

/-- `df['clean_title'] = df['title'].apply(normalize_title)`: a data frame
with the helper key column is a list of (key, record) pairs. -/
def keyRows (df : List Track) : List (String × Track) :=
  df.map (fun r => (normalize_title r.title, r))

/-- One `pd.merge(res, d, on='id', how='inner')` step followed by the final
projection to the base columns: an inner join preserves left row order, and
after `res[cols]` the surviving `title`/`artist`/`album`/`duration` values
are the unsuffixed ones of the left frame, so each (left, right) id match
contributes the left record once. -/
def mergeOnId (res d : List Track) : List Track :=
  res.flatMap (fun a => (d.filter (fun b => b.id == a.id)).map (fun _ => a))

/-- `logic_strict_intersection` from `src/main.py`. -/
def logic_strict_intersection (dfs : List (List Track)) : List Track :=
  match dfs with
  | [] => []
  | d0 :: rest => rest.foldl mergeOnId d0

/-- Result row of `logic_fuzzy_intersection`: matching key (`匹配基准`),
source tag, title, artist, album, id. -/
structure FuzzyRow where
  key : String
  source : String
  title : String
  artist : String
  album : String
  id : String
deriving DecidableEq, Repr

/-- Boolean lexicographic (code point) order on lists of characters; this is
exactly how Python compares strings, so it models `sorted` on title keys. -/
def lexLe : List Char → List Char → Bool
  | [], _ => true
  | _ :: _, [] => false
  | a :: as, b :: bs => a < b || (a == b && lexLe as bs)

/-- Python's `≤` on strings, as a decidable relation used for sorting. -/
def strLeP (a b : String) : Prop :=
  lexLe a.data b.data = true

instance : DecidableRel strLeP :=
  fun a b => inferInstanceAs (Decidable (lexLe a.data b.data = true))

/-- The value of the Python set
`set(df1['clean_title']) & set(df2['clean_title'])` of
`logic_fuzzy_intersection`, modelled as a deduplicated list. -/
def fuzzyCommonKeys (k1 k2 : List (String × Track)) : List String :=
  ((k1.map Prod.fst).filter (fun k => (k2.map Prod.fst).contains k)).dedup

/-- The loop body of `logic_fuzzy_intersection` for one common key: the
`'均有'` rows for the ids shared by both restrictions (fields taken from
`sub_a`'s first matching row, as `iloc[0]` does), then `sub_a`'s remaining
rows tagged `[A]`, then `sub_b`'s remaining rows tagged `[B]`.  Python
iterates `common_ids` over a hash set whose order is unspecified; the model
fixes the order of first occurrence in `sub_a`. -/
def fuzzyEmitKey (s1 s2 : String) (k1 k2 : List (String × Track))
    (key : String) : List FuzzyRow :=
  let subA := k1.filter (fun p => p.1 == key)
  let subB := k2.filter (fun p => p.1 == key)
  let idsA := subA.map (fun p => p.2.id)
  let idsB := subB.map (fun p => p.2.id)
  let commonIds := (idsA.filter (fun i => idsB.contains i)).dedup
  let bothRows := commonIds.filterMap (fun sid =>
    (subA.find? (fun p => p.2.id == sid)).map (fun p =>
      ({ key := key, source := "均有", title := p.2.title,
         artist := p.2.artist, album := p.2.album, id := sid } : FuzzyRow)))
  let aRows := (subA.filter (fun p => !commonIds.contains p.2.id)).map
    (fun p =>
      ({ key := key, source := ("[A] " ++ s1), title := p.2.title,
         artist := p.2.artist, album := p.2.album, id := p.2.id } : FuzzyRow))
  let bRows := (subB.filter (fun p => !commonIds.contains p.2.id)).map
    (fun p =>
      ({ key := key, source := ("[B] " ++ s2), title := p.2.title,
         artist := p.2.artist, album := p.2.album, id := p.2.id } : FuzzyRow))
  bothRows ++ aRows ++ bRows

/-- `logic_fuzzy_intersection` from `src/main.py`: add the helper key
column to both frames, intersect the key sets, and for each common key (in
sorted order) emit the block of `fuzzyEmitKey`; returns the rows and the
number of distinct common keys. -/
def logic_fuzzy_intersection (name1 : String) (df1 : List Track)
    (name2 : String) (df2 : List Track) : List FuzzyRow × Nat :=
  let k1 := keyRows df1
  let k2 := keyRows df2
  let commonKeys := fuzzyCommonKeys k1 k2
  if commonKeys.isEmpty then ([], 0)
  else
    ((commonKeys.insertionSort strLeP).flatMap
      (fuzzyEmitKey (stripLabel name1) (stripLabel name2) k1 k2),
     commonKeys.length)

/-- `logic_difference` from `src/main.py`: in strict mode
`df_a[~df_a['id'].isin(df_b['id'])]`; in fuzzy mode the helper key column
`c` is added to both copies, rows filtered, and the column dropped again
(`map Prod.snd`). -/
def logic_difference (dfA dfB : List Track) (mode : DedupMode) : List Track :=
  match mode with
  | .strict => dfA.filter (fun r => !(dfB.map Track.id).contains r.id)
  | .fuzzy =>
    ((keyRows dfA).filter
      (fun p => !((keyRows dfB).map Prod.fst).contains p.1)).map Prod.snd

/-- `drop_duplicates(subset=[key], keep='first')` on a concatenated frame,
with `seen` accumulating the keys already kept. -/
def dropDupFirst (key : Track → String) : List String → List Track → List Track
  | _, [] => []
  | seen, r :: rs =>
    if seen.contains (key r) then dropDupFirst key seen rs
    else r :: dropDupFirst key (key r :: seen) rs

/-- `logic_union` from `src/main.py`: concatenate in input order
(`pd.concat`, modelled by `flatten`), then keep the first occurrence per
key.  In fuzzy mode the helper `clean_title` column is added before the
concat and dropped after `drop_duplicates`; keying the deduplication
directly on `normalize_title` is the column-free equivalent. -/
def logic_union (dfs : List (List Track)) (mode : DedupMode) : List Track :=
  if dfs.isEmpty then []
  else dropDupFirst (dedupKey mode) [] dfs.flatten

/-- Result row of `logic_internal_check`: the columns
`['clean_title', 'title', 'artist', 'album', 'duration']`, with
`clean_title` renamed to the matching-key column `匹配基准`. -/
structure InternalRow where
  key : String
  title : String
  artist : String
  album : String
  duration : String
deriving DecidableEq, Repr

/-- Projection of a keyed track to an `InternalRow`. -/
def mkInternalRow (k : String) (r : Track) : InternalRow :=
  { key := k, title := r.title, artist := r.artist, album := r.album,
    duration := r.duration }

/-- Row order used by `sort_values(by=['clean_title', 'artist'])`:
lexicographic on the (key, artist) pair. -/
def rowLe (p q : InternalRow) : Bool :=
  if p.key = q.key then lexLe p.artist.data q.artist.data
  else lexLe p.key.data q.key.data

/-- `rowLe` as a decidable relation used for sorting. -/
def rowLeP (p q : InternalRow) : Prop :=
  rowLe p q = true

instance : DecidableRel rowLeP :=
  fun p q => inferInstanceAs (Decidable (rowLe p q = true))

/-- `logic_internal_check` from `src/main.py`:
`df.duplicated(subset=['clean_title'], keep=False)` marks every row whose
key occurs at least twice; those rows are sorted by (key, artist) and
projected to the output columns.  `sort_values`'s default quicksort is not
stable, so the order of rows tied on both key and artist is unspecified;
the model fixes it with a stable insertion sort. -/
def logic_internal_check (df : List Track) : List InternalRow :=
  let keyed := keyRows df
  let dupes := keyed.filter (fun p => 2 ≤ keyed.countP (fun q => q.1 == p.1))
  if dupes.isEmpty then []
  else (dupes.map (fun p => mkInternalRow p.1 p.2)).insertionSort rowLeP

/-! ## Observations used to state the claims about `normalize_title` -/

/-- A complete parenthetical span remains in a list of characters: some
opening paren is followed (anywhere later) by some closing paren. -/
def hasParenSpan : List Char → Bool
  | [] => false
  | c :: cs => (isOpenParen c && cs.any isCloseParen) || hasParenSpan cs

/-! ## Lemmas about the paren-stripping scan -/

theorem findClose_some_length {l r : List Char} (h : findClose l = some r) :
    r.length < l.length := by
  induction l with
  | nil => simp [findClose] at h
  | cons c cs ih =>
    simp only [findClose] at h
    split at h
    · cases h
      simp
    · split at h
      · cases h
      · exact Nat.lt_trans (ih h) (by simp)

theorem findClose_some_sublist {l r : List Char} (h : findClose l = some r) :
    r.Sublist l := by
  induction l with
  | nil => simp [findClose] at h
  | cons c cs ih =>
    simp only [findClose] at h
    split at h
    · cases h
      exact List.sublist_cons_self c r
    · split at h
      · cases h
      · exact (ih h).trans (List.sublist_cons_self c cs)

theorem findClose_some_close {l r : List Char} (h : findClose l = some r) :
    ∃ c ∈ l, isCloseParen c = true := by
  induction l with
  | nil => simp [findClose] at h
  | cons c cs ih =>
    simp only [findClose] at h
    split at h
    · exact ⟨c, List.mem_cons_self c cs, by assumption⟩
    · split at h
      · cases h
      · obtain ⟨x, hx, hc⟩ := ih h
        exact ⟨x, List.mem_cons_of_mem c hx, hc⟩

theorem findClose_none_no_close {l : List Char} (h : findClose l = none)
    (hn : '\n' ∉ l) : ∀ c ∈ l, isCloseParen c = false := by
  induction l with
  | nil => intro c hc; cases hc
  | cons c cs ih =>
    intro x hx
    by_cases hc : isCloseParen c = true
    · simp [findClose, hc] at h
    · by_cases hnl : c = '\n'
      · subst hnl
        exact absurd (List.mem_cons_self _ _) hn
      · have h' : findClose cs = none := by simpa [findClose, hc, hnl] using h
        rcases List.mem_cons.mp hx with rfl | hx'
        · simpa using hc
        · exact ih h' (fun hm => hn (List.mem_cons_of_mem c hm)) x hx'

theorem isOpenParen_not_space {c : Char} (h : isOpenParen c = true) :
    pyIsSpace c = false := by
  have h' : c = '(' ∨ c = '（' := by simpa [isOpenParen] using h
  rcases h' with rfl | rfl <;> decide

theorem tryParenMatch_drop_nil {cs : List Char}
    (hd : cs.dropWhile pyIsSpace = []) : tryParenMatch cs = none := by
  unfold tryParenMatch
  rw [hd]

theorem tryParenMatch_drop_cons {cs rest : List Char} {o : Char}
    (hd : cs.dropWhile pyIsSpace = o :: rest) :
    tryParenMatch cs = if isOpenParen o then findClose rest else none := by
  unfold tryParenMatch
  rw [hd]

theorem tryParenMatch_some_length {cs r : List Char}
    (h : tryParenMatch cs = some r) : r.length < cs.length := by
  cases hd : cs.dropWhile pyIsSpace with
  | nil => rw [tryParenMatch_drop_nil hd] at h; cases h
  | cons o rest =>
    rw [tryParenMatch_drop_cons hd] at h
    by_cases ho : isOpenParen o = true
    · rw [if_pos ho] at h
      have h1 := findClose_some_length h
      have h2 : (o :: rest).length ≤ cs.length := by
        rw [← hd]
        exact (List.dropWhile_sublist pyIsSpace).length_le
      simp only [List.length_cons] at h2
      omega
    · rw [if_neg ho] at h; cases h

theorem tryParenMatch_some_sublist {cs r : List Char}
    (h : tryParenMatch cs = some r) : r.Sublist cs := by
  cases hd : cs.dropWhile pyIsSpace with
  | nil => rw [tryParenMatch_drop_nil hd] at h; cases h
  | cons o rest =>
    rw [tryParenMatch_drop_cons hd] at h
    by_cases ho : isOpenParen o = true
    · rw [if_pos ho] at h
      have h1 := findClose_some_sublist h
      have h2 : (o :: rest).Sublist cs := hd ▸ List.dropWhile_sublist pyIsSpace
      exact (h1.trans (List.sublist_cons_self o rest)).trans h2
    · rw [if_neg ho] at h; cases h

theorem hasParenSpan_append_open (t : List Char) {o : Char} {rest : List Char}
    (ho : isOpenParen o = true) (hc : ∃ x ∈ rest, isCloseParen x = true) :
    hasParenSpan (t ++ o :: rest) = true := by
  induction t with
  | nil =>
    simp only [List.nil_append, hasParenSpan, Bool.or_eq_true, Bool.and_eq_true]
    exact Or.inl ⟨ho, List.any_eq_true.mpr hc⟩
  | cons a t ih =>
    simp only [List.cons_append, hasParenSpan, Bool.or_eq_true]
    exact Or.inr ih

theorem tryParenMatch_some_span {cs r : List Char}
    (h : tryParenMatch cs = some r) : hasParenSpan cs = true := by
  cases hd : cs.dropWhile pyIsSpace with
  | nil => rw [tryParenMatch_drop_nil hd] at h; cases h
  | cons o rest =>
    rw [tryParenMatch_drop_cons hd] at h
    by_cases ho : isOpenParen o = true
    · rw [if_pos ho] at h
      have hcs : cs.takeWhile pyIsSpace ++ o :: rest = cs := by
        rw [← hd]
        exact List.takeWhile_append_dropWhile pyIsSpace cs
      rw [← hcs]
      exact hasParenSpan_append_open _ ho (findClose_some_close h)
    · rw [if_neg ho] at h; cases h

theorem tryParenMatch_open_none {c : Char} {cs : List Char}
    (ho : isOpenParen c = true) (h : tryParenMatch (c :: cs) = none) :
    findClose cs = none := by
  have hd : (c :: cs).dropWhile pyIsSpace = c :: cs := by
    rw [List.dropWhile_cons]
    simp [isOpenParen_not_space ho]
  rw [tryParenMatch_drop_cons hd, if_pos ho] at h
  exact h

theorem subParensF_congr : ∀ (f g : Nat) (cs : List Char),
    cs.length ≤ f → cs.length ≤ g → subParensF f cs = subParensF g cs := by
  intro f
  induction f with
  | zero =>
    intro g cs hf _
    have : cs = [] := List.eq_nil_of_length_eq_zero (Nat.le_zero.mp hf)
    subst this
    simp [subParensF]
  | succ f ih =>
    intro g cs hf hg
    cases cs with
    | nil => simp [subParensF]
    | cons c cs' =>
      cases g with
      | zero => simp at hg
      | succ g' =>
        simp only [subParensF]
        cases h : tryParenMatch (c :: cs') with
        | some rest =>
          have hl := tryParenMatch_some_length h
          simp only [List.length_cons] at hl hf hg
          exact ih g' rest (by omega) (by omega)
        | none =>
          simp only [List.length_cons] at hf hg
          exact congrArg (c :: ·) (ih g' cs' (by omega) (by omega))

theorem subParens_eq_of_match {c : Char} {cs rest : List Char}
    (h : tryParenMatch (c :: cs) = some rest) :
    subParens (c :: cs) = subParens rest := by
  have hl := tryParenMatch_some_length h
  simp only [List.length_cons] at hl
  unfold subParens
  rw [List.length_cons]
  simp only [subParensF, h]
  exact subParensF_congr cs.length rest.length rest (by omega) le_rfl

theorem subParens_eq_of_no_match {c : Char} {cs : List Char}
    (h : tryParenMatch (c :: cs) = none) :
    subParens (c :: cs) = c :: subParens cs := by
  unfold subParens
  rw [List.length_cons]
  simp only [subParensF, h]

theorem subParensF_sublist : ∀ (f : Nat) (cs : List Char),
    (subParensF f cs).Sublist cs := by
  intro f
  induction f with
  | zero =>
    intro cs
    cases cs <;> simp [subParensF]
  | succ f ih =>
    intro cs
    cases cs with
    | nil => simp [subParensF]
    | cons c cs' =>
      simp only [subParensF]
      cases h : tryParenMatch (c :: cs') with
      | some rest => exact (ih rest).trans (tryParenMatch_some_sublist h)
      | none => exact (ih cs').cons₂ c

theorem subParens_sublist (cs : List Char) : (subParens cs).Sublist cs :=
  subParensF_sublist cs.length cs

theorem hasParenSpan_mono {l₁ l₂ : List Char} (h : l₁.Sublist l₂)
    (hs : hasParenSpan l₁ = true) : hasParenSpan l₂ = true := by
  induction h with
  | slnil => exact hs
  | cons a _ ih =>
    simp only [hasParenSpan, Bool.or_eq_true]
    exact Or.inr (ih hs)
  | cons₂ a h ih =>
    simp only [hasParenSpan, Bool.or_eq_true, Bool.and_eq_true] at hs ⊢
    rcases hs with ⟨ho, hany⟩ | hrest
    · obtain ⟨x, hx, hc⟩ := List.any_eq_true.mp hany
      exact Or.inl ⟨ho, List.any_eq_true.mpr ⟨x, h.subset hx, hc⟩⟩
    · exact Or.inr (ih hrest)

theorem subParens_no_span : ∀ (cs : List Char), '\n' ∉ cs →
    hasParenSpan (subParens cs) = false := by
  have H : ∀ (n : Nat) (cs : List Char), cs.length ≤ n → '\n' ∉ cs →
      hasParenSpan (subParens cs) = false := by
    intro n
    induction n with
    | zero =>
      intro cs hlen _
      have : cs = [] := List.eq_nil_of_length_eq_zero (Nat.le_zero.mp hlen)
      subst this
      rfl
    | succ n ih =>
      intro cs hlen hnl
      cases cs with
      | nil => rfl
      | cons c cs' =>
        cases h : tryParenMatch (c :: cs') with
        | some rest =>
          rw [subParens_eq_of_match h]
          have hsub := tryParenMatch_some_sublist h
          have hl := tryParenMatch_some_length h
          simp only [List.length_cons] at hl hlen
          exact ih rest (by omega) (fun hm => hnl (hsub.subset hm))
        | none =>
          rw [subParens_eq_of_no_match h]
          have hnl' : '\n' ∉ cs' := fun hm => hnl (List.mem_cons_of_mem c hm)
          simp only [List.length_cons] at hlen
          have htail := ih cs' (by omega) hnl'
          simp only [hasParenSpan, Bool.or_eq_false_iff, Bool.and_eq_false_iff]
          refine ⟨?_, htail⟩
          by_cases ho : isOpenParen c = true
          · right
            rw [List.any_eq_false]
            intro x hx
            have hfc := tryParenMatch_open_none ho h
            simp only [Bool.not_eq_true]
            exact findClose_none_no_close hfc hnl' x
              ((subParens_sublist cs').subset hx)
          · exact Or.inl (by simpa using ho)
  exact fun cs => H cs.length cs le_rfl

theorem subParens_of_no_span : ∀ (cs : List Char), hasParenSpan cs = false →
    subParens cs = cs := by
  intro cs
  induction cs with
  | nil => intro _; rfl
  | cons c cs ih =>
    intro hs
    simp only [hasParenSpan, Bool.or_eq_false_iff] at hs
    obtain ⟨hs1, hs2⟩ := hs
    have hnone : tryParenMatch (c :: cs) = none := by
      cases h : tryParenMatch (c :: cs) with
      | none => rfl
      | some rest =>
        have := tryParenMatch_some_span h
        simp only [hasParenSpan, Bool.or_eq_true] at this
        rcases this with h1 | h2
        · rw [hs1] at h1; cases h1
        · rw [hs2] at h2; cases h2
    rw [subParens_eq_of_no_match hnone, ih hs2]

/-! ## Lemmas about lowercasing, the hyphen rule and stripping -/

theorem toLower_toLower (c : Char) : c.toLower.toLower = c.toLower := by
  unfold Char.toLower
  by_cases h : 65 ≤ c.toNat ∧ c.toNat ≤ 90
  · rw [if_pos h]
    have hv : (c.toNat + 32).isValidChar := Or.inl (by omega)
    have ht : (Char.ofNat (c.toNat + 32)).toNat = c.toNat + 32 := by
      rw [Char.ofNat, dif_pos hv]; rfl
    rw [ht, if_neg (by omega)]
  · rw [if_neg h, if_neg h]

theorem toLower_eq_newline {c : Char} (h : c.toLower = '\n') : c = '\n' := by
  by_cases hc : 65 ≤ c.toNat ∧ c.toNat ≤ 90
  · exfalso
    have hv : (c.toNat + 32).isValidChar := Or.inl (by omega)
    have ht : (Char.ofNat (c.toNat + 32)).toNat = c.toNat + 32 := by
      rw [Char.ofNat, dif_pos hv]; rfl
    have h' : c.toLower.toNat = c.toNat + 32 := by
      unfold Char.toLower
      rw [if_pos hc]
      exact ht
    rw [h] at h'
    have h10 : ('\n').toNat = 10 := rfl
    omega
  · unfold Char.toLower at h
    rwa [if_neg hc] at h

theorem newline_not_mem_map_toLower {cs : List Char} (h : '\n' ∉ cs) :
    '\n' ∉ cs.map Char.toLower := by
  intro hm
  obtain ⟨x, hx, he⟩ := List.mem_map.mp hm
  exact h (toLower_eq_newline he ▸ hx)

theorem map_toLower_self {l cs : List Char} (hsub : l ⊆ cs.map Char.toLower) :
    l.map Char.toLower = l := by
  have : ∀ x ∈ l, Char.toLower x = x := by
    intro x hx
    obtain ⟨y, _, he⟩ := List.mem_map.mp (hsub hx)
    rw [← he, toLower_toLower]
  calc l.map Char.toLower = l.map id := List.map_congr_left this
  _ = l := List.map_id l

theorem dropWhile_dropWhile (p : Char → Bool) (l : List Char) :
    List.dropWhile p (List.dropWhile p l) = List.dropWhile p l := by
  induction l with
  | nil => rfl
  | cons c cs ih =>
    rw [List.dropWhile_cons]
    by_cases h : p c = true
    · rw [if_pos h]; exact ih
    · rw [if_neg h, List.dropWhile_cons, if_neg h]

theorem dropWhile_eq_cons_head {p : Char → Bool} {l t : List Char} {a : Char}
    (h : List.dropWhile p l = a :: t) : p a = false := by
  induction l with
  | nil => cases h
  | cons c cs ih =>
    rw [List.dropWhile_cons] at h
    by_cases hc : p c = true
    · rw [if_pos hc] at h; exact ih h
    · rw [if_neg hc] at h
      cases h
      simpa using hc

theorem pyStrip_sublist (l : List Char) : (pyStrip l).Sublist l := by
  unfold pyStrip
  have h1 : ((l.dropWhile pyIsSpace).reverse.dropWhile pyIsSpace).reverse.Sublist
      (l.dropWhile pyIsSpace) := by
    have := List.dropWhile_sublist (l := (l.dropWhile pyIsSpace).reverse) pyIsSpace
    have h2 := this.reverse
    rwa [List.reverse_reverse] at h2
  exact h1.trans (List.dropWhile_sublist pyIsSpace)

theorem pyStrip_idem (l : List Char) : pyStrip (pyStrip l) = pyStrip l := by
  unfold pyStrip
  have hback : ((l.dropWhile pyIsSpace).reverse.dropWhile pyIsSpace).reverse.dropWhile
      pyIsSpace = ((l.dropWhile pyIsSpace).reverse.dropWhile pyIsSpace).reverse := by
    cases hk : ((l.dropWhile pyIsSpace).reverse.dropWhile pyIsSpace).reverse with
    | nil => rfl
    | cons a t =>
      -- the reversed back-stripped list is an initial segment of the
      -- front-stripped list, so its head fails `pyIsSpace`
      have hm : l.dropWhile pyIsSpace =
          a :: (t ++ ((l.dropWhile pyIsSpace).reverse.takeWhile pyIsSpace).reverse) := by
        conv_lhs => rw [← List.reverse_reverse (l.dropWhile pyIsSpace),
          ← List.takeWhile_append_dropWhile pyIsSpace (l.dropWhile pyIsSpace).reverse]
        rw [List.reverse_append, hk]
        simp
      have hpa : pyIsSpace a = false := dropWhile_eq_cons_head hm
      rw [List.dropWhile_cons, if_neg (by simp [hpa])]
  rw [hback, List.reverse_reverse, dropWhile_dropWhile]

theorem hyphen_not_mem_hyphenCut (l : List Char) : '-' ∉ hyphenCut l := by
  unfold hyphenCut
  by_cases h : '-' ∈ l
  · rw [if_pos h]
    intro hm
    have := List.mem_takeWhile_imp hm
    simp at this
  · rw [if_neg h]
    exact h

theorem hyphenCut_sublist (l : List Char) : (hyphenCut l).Sublist l := by
  unfold hyphenCut
  by_cases h : '-' ∈ l
  · rw [if_pos h]; exact List.takeWhile_sublist _
  · rw [if_neg h]

theorem hyphenCut_of_not_mem {l : List Char} (h : '-' ∉ l) : hyphenCut l = l := by
  unfold hyphenCut
  rw [if_neg h]

/-! ## Claims C1 and C8: behaviour of `normalize_title` -/

/-- C1, counterexample: the claim predicts that only the first parenthetical
span of `"a (b) c (d)"` is removed, so that the normalized key would keep
the second group and be `"a c (d)"`; the code removes both groups and
returns `"a c"`. -/
theorem normalize_title_strips_later_groups :
    normalize_title "a (b) c (d)" = "a c" ∧ ("a c" : String) ≠ "a c (d)" := by
  decide

/-- C1 (amended): `re.sub` removes every parenthetical span, not only the
leftmost one: scanning left to right, each span from an opening paren to
the nearest following closing paren (reachable without a newline), together
with the whitespace before it, is removed; consequently, for any title
without a newline character, the paren-stripping stage of `normalize_title`
leaves no opening paren that is still followed by a closing paren. -/
theorem subParens_removes_every_span (s : String) (h : '\n' ∉ s.data) :
    hasParenSpan (subParens (s.data.map Char.toLower)) = false :=
  subParens_no_span _ (newline_not_mem_map_toLower h)

/-- Witness for `subParens_removes_every_span` at the two-group title
`"a (b) c (d)"`. -/
theorem subParens_removes_every_span_witness :
    hasParenSpan (subParens (("a (b) c (d)" : String).data.map Char.toLower)) = false :=
  subParens_removes_every_span "a (b) c (d)" (by decide)

/-- C8, counterexample: `normalize_title` is not idempotent on every string.
For `"(x\n(a)b)"` the newline blocks the outer paren from matching, the
inner span `"\n(a)"` is removed, and the remaining text rejoins to the new
complete span `"(xb)"`, which a second application removes. -/
theorem normalize_title_not_idem :
    normalize_title (normalize_title "(x\n(a)b)") ≠ normalize_title "(x\n(a)b)" := by
  decide

/-- C8 (amended): `normalize_title` is idempotent on every title that
contains no newline character: the scan then removes every remaining
parenthetical span, the output is already lowercase, hyphen-free and
stripped, so a second application changes nothing. -/
theorem normalize_title_idem_of_no_newline (s : String) (h : '\n' ∉ s.data) :
    normalize_title (normalize_title s) = normalize_title s := by
  have h0 : '\n' ∉ s.data.map Char.toLower := newline_not_mem_map_toLower h
  set l0 := s.data.map Char.toLower with hl0
  set l1 := subParens l0 with hl1
  set l2 := hyphenCut l1 with hl2
  set r := pyStrip l2 with hrdef
  have hr2 : r.Sublist l2 := pyStrip_sublist l2
  have h21 : l2.Sublist l1 := hyphenCut_sublist l1
  have hr1 : r.Sublist l1 := hr2.trans h21
  have hr0 : r ⊆ l0 := (hr1.trans (subParens_sublist l0)).subset
  have hdata : (normalize_title s).data = r := rfl
  have ha : r.map Char.toLower = r := map_toLower_self hr0
  have hspan1 : hasParenSpan l1 = false := subParens_no_span l0 h0
  have hspanr : hasParenSpan r = false := by
    cases hsr : hasParenSpan r with
    | false => rfl
    | true => rw [hasParenSpan_mono hr1 hsr] at hspan1; cases hspan1
  have hb : subParens r = r := subParens_of_no_span r hspanr
  have hnh : '-' ∉ r := fun hm => hyphen_not_mem_hyphenCut l1 (hr2.subset hm)
  have hc : hyphenCut r = r := hyphenCut_of_not_mem hnh
  have hd : pyStrip r = r := by rw [hrdef]; exact pyStrip_idem l2
  show String.mk
      (pyStrip (hyphenCut (subParens ((normalize_title s).data.map Char.toLower)))) =
    normalize_title s
  rw [hdata, ha, hb, hc, hd]
  rfl

/-- Witness for `normalize_title_idem_of_no_newline` at a representative
title exercising parens, the hyphen rule and trimming. -/
theorem normalize_title_idem_witness :
    normalize_title (normalize_title "Love Song (Live) - Remix") =
      normalize_title "Love Song (Live) - Remix" :=
  normalize_title_idem_of_no_newline "Love Song (Live) - Remix" (by decide)

/-! ## Claim C9: `parse_id` -/

/-- Position-indexed reading of the regex `id=(\d+)`: does a match start at
index `i` of the character list? -/
def idMatchAt (cs : List Char) (i : Nat) : Option (List Char) :=
  match cs.drop i with
  | 'i' :: 'd' :: '=' :: rest =>
    if (rest.takeWhile Char.isDigit).isEmpty then none
    else some (rest.takeWhile Char.isDigit)
  | _ => none

/-- The leftmost match of `id=(\d+)`, expressed through `idMatchAt` by
scanning the start positions in increasing order. -/
def firstIdMatch (cs : List Char) : Option (List Char) :=
  (List.range cs.length).findSome? (idMatchAt cs)

theorem idMatchAt_succ (cs : List Char) (c : Char) (i : Nat) :
    idMatchAt (c :: cs) (i + 1) = idMatchAt cs i := rfl

theorem firstIdMatch_cons (c : Char) (cs : List Char) :
    firstIdMatch (c :: cs) =
      match idMatchAt (c :: cs) 0 with
      | some ds => some ds
      | none => firstIdMatch cs := by
  unfold firstIdMatch
  rw [List.length_cons, List.range_succ_eq_map, List.findSome?_cons]
  cases h : idMatchAt (c :: cs) 0 with
  | some ds => rfl
  | none =>
    simp only
    rw [List.findSome?_map]
    have he : idMatchAt (c :: cs) ∘ Nat.succ = idMatchAt cs :=
      funext (fun i => idMatchAt_succ cs c i)
    rw [he]

theorem findIdNum_cons_of_ne {head : Char} {cs : List Char}
    (hne : ∀ rest, head = 'i' → cs = 'd' :: '=' :: rest → False) :
    findIdNum (head :: cs) = findIdNum cs := by
  rw [findIdNum.eq_def]
  split
  · rename_i rest heq
    injection heq with h1 h2
    exact (hne rest h1 h2).elim
  · rename_i c cs' heq
    injection heq with h1 h2
    rw [h2]
  · rename_i heq
    cases heq

theorem findIdNum_eq_firstIdMatch : ∀ cs, findIdNum cs = firstIdMatch cs := by
  intro cs
  induction cs using findIdNum.induct with
  | case1 rest ds hd ih =>
    rw [firstIdMatch_cons]
    have h0 : idMatchAt ('i' :: 'd' :: '=' :: rest) 0 = none := by
      show (if (rest.takeWhile Char.isDigit).isEmpty then none
        else some (rest.takeWhile Char.isDigit)) = (none : Option (List Char))
      rw [if_pos hd]
    rw [h0]
    show (if (rest.takeWhile Char.isDigit).isEmpty then findIdNum ('d' :: '=' :: rest)
      else some (rest.takeWhile Char.isDigit)) = firstIdMatch ('d' :: '=' :: rest)
    rw [if_pos hd]
    exact ih
  | case2 rest ds hd =>
    rw [firstIdMatch_cons]
    have h0 : idMatchAt ('i' :: 'd' :: '=' :: rest) 0 =
        some (rest.takeWhile Char.isDigit) := by
      show (if (rest.takeWhile Char.isDigit).isEmpty then none
        else some (rest.takeWhile Char.isDigit)) = some (rest.takeWhile Char.isDigit)
      rw [if_neg hd]
    rw [h0]
    show (if (rest.takeWhile Char.isDigit).isEmpty then findIdNum ('d' :: '=' :: rest)
      else some (rest.takeWhile Char.isDigit)) = some (rest.takeWhile Char.isDigit)
    rw [if_neg hd]
  | case3 head cs hne ih =>
    rw [firstIdMatch_cons]
    have h0 : idMatchAt (head :: cs) 0 = none := by
      unfold idMatchAt
      rw [List.drop_zero]
      split
      · rename_i rest heq
        injection heq with h1 h2
        exact (hne rest h1 h2).elim
      · rfl
    rw [h0]
    simp only
    rw [← ih]
    exact findIdNum_cons_of_ne hne
  | case4 => rfl

theorem findIdNum_none_of_digits {cs : List Char}
    (h : cs.all Char.isDigit = true) : findIdNum cs = none := by
  induction cs using findIdNum.induct with
  | case1 rest ds hd ih =>
    exfalso
    have hi : ('i').isDigit = false := by decide
    rw [List.all_cons, hi] at h
    simp at h
  | case2 rest ds hd =>
    exfalso
    have hi : ('i').isDigit = false := by decide
    rw [List.all_cons, hi] at h
    simp at h
  | case3 head cs hne ih =>
    rw [List.all_cons, Bool.and_eq_true] at h
    rw [findIdNum_cons_of_ne hne]
    exact ih h.2
  | case4 => rfl

theorem idMatchAt_some_lt {cs ds : List Char} {i : Nat}
    (h : idMatchAt cs i = some ds) : i < cs.length := by
  by_contra hi
  have hd : cs.drop i = [] := List.drop_eq_nil_of_le (by omega)
  unfold idMatchAt at h
  rw [hd] at h
  cases h

theorem findSome?_range_eq_some {β : Type} {n i : Nat} {f : Nat → Option β}
    {ds : β} (hi : i < n) (h : f i = some ds)
    (hmin : ∀ j, j < i → f j = none) :
    (List.range n).findSome? f = some ds := by
  induction n with
  | zero => omega
  | succ n ih =>
    rw [List.range_succ, List.findSome?_append]
    by_cases hin : i < n
    · rw [ih hin]
      rfl
    · have hin' : i = n := by omega
      subst hin'
      have hnone : (List.range i).findSome? f = none :=
        List.findSome?_eq_none_iff.mpr (fun j hj => hmin j (List.mem_range.mp hj))
      rw [hnone]
      simp [List.findSome?_cons, h]

/-- C9: `parse_id` returns the digit group of the leftmost `id=<digits>`
match when one exists; otherwise the whole string when it is a non-empty
all-digit string (Python `isdigit` is false on `""`); otherwise `None`,
rejecting the input. -/
theorem parse_id_spec (s : String) :
    (∀ i ds, idMatchAt s.data i = some ds →
      (∀ j, j < i → idMatchAt s.data j = none) → parse_id s = some (String.mk ds))
    ∧ (s.data ≠ [] → s.data.all Char.isDigit = true → parse_id s = some s)
    ∧ ((∀ i, idMatchAt s.data i = none) →
        (s.data = [] ∨ s.data.all Char.isDigit = false) → parse_id s = none) := by
  refine ⟨?_, ?_, ?_⟩
  · intro i ds h hmin
    have hi : i < s.data.length := idMatchAt_some_lt h
    have hf : firstIdMatch s.data = some ds := findSome?_range_eq_some hi h hmin
    unfold parse_id
    rw [findIdNum_eq_firstIdMatch, hf]
  · intro hne hall
    have h1 : s.data.isEmpty = false := by
      cases hs : s.data with
      | nil => exact absurd hs hne
      | cons a l => rfl
    unfold parse_id
    rw [findIdNum_none_of_digits hall]
    show (if !s.data.isEmpty && s.data.all Char.isDigit then some s else none) =
      some s
    rw [if_pos (by rw [h1, hall]; rfl)]
  · intro hnone hcase
    have hf : firstIdMatch s.data = none :=
      List.findSome?_eq_none_iff.mpr (fun j _ => hnone j)
    unfold parse_id
    rw [findIdNum_eq_firstIdMatch, hf]
    show (if !s.data.isEmpty && s.data.all Char.isDigit then some s else none) =
      none
    rcases hcase with hnil | hfalse
    · simp [hnil]
    · simp [hfalse]

/-- Witness for `parse_id_spec`: a URL-like input, a pure numeric input and
a rejected input. -/
theorem parse_id_spec_witness :
    parse_id "id=42" = some "42" ∧ parse_id "123" = some "123" ∧
      parse_id "x?y" = none := by
  refine ⟨?_, ?_, ?_⟩
  · exact (parse_id_spec "id=42").1 0 "42".data (by decide)
      (fun j hj => absurd hj (Nat.not_lt_zero j))
  · exact (parse_id_spec "123").2.1 (by decide) (by decide)
  · refine (parse_id_spec "x?y").2.2 ?_ (Or.inr (by decide))
    intro i
    rcases i with _ | _ | _ | i
    · decide
    · decide
    · decide
    · have hlen : ("x?y".data).length = 3 := by decide
      have hd : ("x?y".data).drop (i + 3) = [] :=
        List.drop_eq_nil_of_le (by omega)
      unfold idMatchAt
      rw [hd]

/-! ## Claim C2: empty input collections -/

/-- C2: every engine operation (internal check, strict and fuzzy
intersection, difference, union in both modes) maps empty input collections
to an empty result table (with count 0 for the fuzzy intersection); the
operations are total, so no failure is possible in the model. -/
theorem engine_ops_empty_inputs :
    logic_internal_check [] = []
    ∧ logic_strict_intersection [] = []
    ∧ (∀ B : List Track, logic_strict_intersection [[], B] = []
        ∧ logic_strict_intersection [B, []] = [])
    ∧ (∀ (n1 n2 : String) (B : List Track),
        logic_fuzzy_intersection n1 [] n2 B = ([], 0)
        ∧ logic_fuzzy_intersection n1 B n2 [] = ([], 0))
    ∧ (∀ (B : List Track) (m : DedupMode), logic_difference [] B m = [])
    ∧ (∀ m : DedupMode, logic_union [] m = [] ∧ logic_union [[], []] m = []) := by
  refine ⟨rfl, rfl, ?_, ?_, ?_, ?_⟩
  · intro B
    exact ⟨rfl, by simp [logic_strict_intersection, mergeOnId]⟩
  · intro n1 n2 B
    constructor
    · rfl
    · simp [logic_fuzzy_intersection, fuzzyCommonKeys, keyRows]
  · intro B m
    cases m <;> rfl
  · intro m
    cases m <;> exact ⟨rfl, rfl⟩

/-! ## Claim C7: strict intersection is commutative on ids -/

theorem mem_mergeOnId_map_id (C D : List Track) (y : String) :
    y ∈ (mergeOnId C D).map Track.id ↔
      (∃ c ∈ C, c.id = y) ∧ ∃ d ∈ D, d.id = y := by
  constructor
  · intro hy
    obtain ⟨r, hr, hid⟩ := List.mem_map.mp hy
    obtain ⟨a, ha, hmem2⟩ := List.mem_flatMap.mp hr
    obtain ⟨b, hb, hba⟩ := List.mem_map.mp hmem2
    have hba' : a = r := hba
    have hbD := List.mem_filter.mp hb
    have hbid : b.id = a.id := by simpa using hbD.2
    have hid' : a.id = y := hba'.symm ▸ hid
    exact ⟨⟨a, ha, hid'⟩, ⟨b, hbD.1, hbid.trans hid'⟩⟩
  · rintro ⟨⟨c, hc, hcy⟩, ⟨d, hd, hdy⟩⟩
    refine List.mem_map.mpr ⟨c, ?_, hcy⟩
    refine List.mem_flatMap.mpr ⟨c, hc, ?_⟩
    exact List.mem_map.mpr ⟨d, List.mem_filter.mpr ⟨hd, by simp [hdy, hcy]⟩, rfl⟩

/-- C7: swapping the two input collections of the strict intersection keeps
the same set of output rows keyed by `id` (each output id is exactly an id
present in both inputs). -/
theorem strict_intersection_comm_on_ids (A B : List Track) (x : String) :
    x ∈ (logic_strict_intersection [A, B]).map Track.id ↔
      x ∈ (logic_strict_intersection [B, A]).map Track.id := by
  have h1 : logic_strict_intersection [A, B] = mergeOnId A B := rfl
  have h2 : logic_strict_intersection [B, A] = mergeOnId B A := rfl
  rw [h1, h2, mem_mergeOnId_map_id, mem_mergeOnId_map_id]
  tauto

/-! ## Claim C5: difference -/

theorem keyRows_map_snd (A : List Track) : (keyRows A).map Prod.snd = A := by
  unfold keyRows
  rw [List.map_map]
  have h : (Prod.snd ∘ fun r : Track => (normalize_title r.title, r)) = id :=
    funext (fun r => rfl)
  rw [h, List.map_id]

theorem keyRows_map_fst (A : List Track) :
    (keyRows A).map Prod.fst = A.map (fun r => normalize_title r.title) := by
  unfold keyRows
  rw [List.map_map]
  rfl

theorem not_contains_iff (l : List String) (x : String) :
    ((!l.contains x) = true) ↔ x ∉ l := by
  simp

theorem logic_difference_fuzzy_eq (A B : List Track) :
    logic_difference A B .fuzzy = A.filter
      (fun r => !(B.map (fun b => normalize_title b.title)).contains
        (normalize_title r.title)) := by
  show ((keyRows A).filter
      (fun p => !((keyRows B).map Prod.fst).contains p.1)).map Prod.snd = _
  rw [keyRows_map_fst]
  unfold keyRows
  rw [List.filter_map, List.map_map]
  have h1 : (Prod.snd ∘ fun r : Track => (normalize_title r.title, r)) = id :=
    funext (fun r => rfl)
  have h2 : ((fun p : String × Track =>
        !(B.map (fun b => normalize_title b.title)).contains p.1) ∘
      fun r : Track => (normalize_title r.title, r)) =
      fun r : Track => !(B.map (fun b => normalize_title b.title)).contains
        (normalize_title r.title) := funext (fun r => rfl)
  rw [h1, h2, List.map_id]

/-- C5: in strict mode the difference keeps exactly the rows of A whose id
appears nowhere in B; in fuzzy mode exactly the rows of A whose normalized
title key appears nowhere among B's normalized keys; in both modes the
result is a sublist of A (original order, original row shape, no helper
column). -/
theorem logic_difference_spec (A B : List Track) :
    ((logic_difference A B .strict).Sublist A
      ∧ ∀ r : Track, r ∈ logic_difference A B .strict ↔
          r ∈ A ∧ ∀ b ∈ B, b.id ≠ r.id)
    ∧ ((logic_difference A B .fuzzy).Sublist A
      ∧ ∀ r : Track, r ∈ logic_difference A B .fuzzy ↔
          r ∈ A ∧ ∀ b ∈ B, normalize_title b.title ≠ normalize_title r.title) := by
  refine ⟨⟨List.filter_sublist A, ?_⟩, ⟨?_, ?_⟩⟩
  · intro r
    show r ∈ A.filter _ ↔ _
    rw [List.mem_filter, not_contains_iff]
    constructor
    · rintro ⟨hA, hno⟩
      exact ⟨hA, fun b hb he => hno (List.mem_map.mpr ⟨b, hb, he⟩)⟩
    · rintro ⟨hA, hno⟩
      refine ⟨hA, fun hm => ?_⟩
      obtain ⟨b, hb, he⟩ := List.mem_map.mp hm
      exact hno b hb he
  · rw [logic_difference_fuzzy_eq]
    exact List.filter_sublist A
  · intro r
    rw [logic_difference_fuzzy_eq, List.mem_filter, not_contains_iff]
    constructor
    · rintro ⟨hA, hno⟩
      exact ⟨hA, fun b hb he => hno (List.mem_map.mpr ⟨b, hb, he⟩)⟩
    · rintro ⟨hA, hno⟩
      refine ⟨hA, fun hm => ?_⟩
      obtain ⟨b, hb, he⟩ := List.mem_map.mp hm
      exact hno b hb he

/-! ## Claims C4 and C10: union -/

/-- The specification-side reading of first-occurrence deduplication: keep a
row exactly when its key has not occurred at any earlier position of the
concatenated list. -/
def firstOccurrences (key : Track → String) : List Track → List Track
  | [] => []
  | r :: rs =>
    r :: firstOccurrences key (rs.filter (fun x => !(key x == key r)))
termination_by l => l.length
decreasing_by
  simp only [List.length_cons]
  exact Nat.lt_succ_of_le (List.length_filter_le _ _)

theorem firstOccurrences_nil (key : Track → String) :
    firstOccurrences key [] = [] := by
  simp [firstOccurrences]

theorem firstOccurrences_cons (key : Track → String) (r : Track)
    (rs : List Track) :
    firstOccurrences key (r :: rs) =
      r :: firstOccurrences key (rs.filter (fun x => !(key x == key r))) := by
  simp [firstOccurrences]

theorem dropDupFirst_eq (key : Track → String) :
    ∀ (l : List Track) (seen : List String),
      dropDupFirst key seen l =
        firstOccurrences key (l.filter (fun x => !(seen.contains (key x)))) := by
  intro l
  induction l with
  | nil => intro seen; simp [dropDupFirst, firstOccurrences_nil]
  | cons r rs ih =>
    intro seen
    show (if seen.contains (key r) then dropDupFirst key seen rs
      else r :: dropDupFirst key (key r :: seen) rs) = _
    rw [List.filter_cons]
    by_cases hs : seen.contains (key r) = true
    · rw [if_pos hs, if_neg (by rw [hs]; simp), ih]
    · have hs' : seen.contains (key r) = false := by
        cases h : seen.contains (key r)
        · rfl
        · exact absurd h hs
      rw [if_neg hs, if_pos (by rw [hs']; rfl)]
      rw [firstOccurrences_cons, List.filter_filter, ih (key r :: seen)]
      congr 1
      refine congrArg (firstOccurrences key) ?_
      apply List.filter_congr
      intro x _
      rw [List.contains_cons]
      cases hxr : key x == key r <;> cases hxs : seen.contains (key x) <;> rfl

theorem logic_union_eq_firstOccurrences (dfs : List (List Track))
    (mode : DedupMode) :
    logic_union dfs mode = firstOccurrences (dedupKey mode) dfs.flatten := by
  unfold logic_union
  by_cases hd : dfs.isEmpty = true
  · rw [if_pos hd]
    have hnil : dfs = [] := by
      cases dfs with
      | nil => rfl
      | cons d ds => simp at hd
    subst hnil
    rw [show (([] : List (List Track)).flatten) = [] from rfl,
      firstOccurrences_nil]
  · rw [if_neg hd, dropDupFirst_eq]
    congr 1
    apply List.filter_eq_self.mpr
    intro x _
    rfl

theorem firstOccurrences_sublist (key : Track → String) :
    ∀ l, (firstOccurrences key l).Sublist l := by
  have H : ∀ (n : Nat) (l : List Track), l.length ≤ n →
      (firstOccurrences key l).Sublist l := by
    intro n
    induction n with
    | zero =>
      intro l hl
      have : l = [] := List.eq_nil_of_length_eq_zero (Nat.le_zero.mp hl)
      subst this
      rw [firstOccurrences_nil]
    | succ n ih =>
      intro l hl
      cases l with
      | nil => rw [firstOccurrences_nil]
      | cons r rs =>
        rw [firstOccurrences_cons]
        simp only [List.length_cons] at hl
        have hf := List.length_filter_le (fun x => !(key x == key r)) rs
        exact ((ih _ (by omega)).trans (List.filter_sublist rs)).cons₂ r
  exact fun l => H l.length l le_rfl

theorem find?_filter_of_imp {p q : Track → Bool} :
    ∀ (l : List Track), (∀ x, p x = true → q x = true) →
      (l.filter q).find? p = l.find? p := by
  intro l himp
  induction l with
  | nil => rfl
  | cons b bs ih =>
    rw [List.filter_cons]
    by_cases hq : q b = true
    · rw [if_pos hq]
      by_cases hp : p b = true
      · rw [List.find?_cons_of_pos _ hp, List.find?_cons_of_pos _ hp]
      · rw [List.find?_cons_of_neg _ (by simpa using hp),
          List.find?_cons_of_neg _ (by simpa using hp)]
        exact ih
    · have hp : p b = false := by
        cases h : p b
        · rfl
        · exact absurd (himp b h) hq
      rw [if_neg hq, List.find?_cons_of_neg _ (by simp [hp])]
      exact ih

theorem mem_firstOccurrences_find? (key : Track → String) :
    ∀ (l : List Track) (r : Track), r ∈ firstOccurrences key l →
      l.find? (fun x => key x == key r) = some r := by
  have H : ∀ (n : Nat) (l : List Track), l.length ≤ n →
      ∀ r ∈ firstOccurrences key l,
        l.find? (fun x => key x == key r) = some r := by
    intro n
    induction n with
    | zero =>
      intro l hl r hr
      have : l = [] := List.eq_nil_of_length_eq_zero (Nat.le_zero.mp hl)
      subst this
      rw [firstOccurrences_nil] at hr
      cases hr
    | succ n ih =>
      intro l hl r hr
      cases l with
      | nil => rw [firstOccurrences_nil] at hr; cases hr
      | cons a as =>
        rw [firstOccurrences_cons] at hr
        simp only [List.length_cons] at hl
        rcases List.mem_cons.mp hr with rfl | hr'
        · exact List.find?_cons_of_pos _ (by simp)
        · have hmem : r ∈ as.filter (fun x => !(key x == key a)) :=
            (firstOccurrences_sublist key _).subset hr'
          have hkr : (key r == key a) = false := by
            have := (List.mem_filter.mp hmem).2
            cases h : key r == key a
            · rfl
            · rw [h] at this; cases this
          have hka : (key a == key r) = false := by
            cases h : key a == key r
            · rfl
            · rw [beq_iff_eq.mp h] at hkr
              rw [beq_self_eq_true] at hkr
              cases hkr
          rw [List.find?_cons_of_neg _ (by simp [hka])]
          have hf := List.length_filter_le (fun x => !(key x == key a)) as
          have hrec := ih (as.filter (fun x => !(key x == key a)))
            (by omega) r hr'
          rw [find?_filter_of_imp] at hrec
          · exact hrec
          · intro x hx
            have hxr : key x = key r := beq_iff_eq.mp hx
            rw [hxr]
            simp [hkr]
  exact fun l r hr => H l.length l le_rfl r hr

theorem firstOccurrences_keys_nodup (key : Track → String) :
    ∀ l, ((firstOccurrences key l).map key).Nodup := by
  have H : ∀ (n : Nat) (l : List Track), l.length ≤ n →
      ((firstOccurrences key l).map key).Nodup := by
    intro n
    induction n with
    | zero =>
      intro l hl
      have : l = [] := List.eq_nil_of_length_eq_zero (Nat.le_zero.mp hl)
      subst this
      rw [firstOccurrences_nil]
      exact List.nodup_nil
    | succ n ih =>
      intro l hl
      cases l with
      | nil => rw [firstOccurrences_nil]; exact List.nodup_nil
      | cons a as =>
        rw [firstOccurrences_cons, List.map_cons]
        simp only [List.length_cons] at hl
        have hf := List.length_filter_le (fun x => !(key x == key a)) as
        refine List.Nodup.cons ?_ (ih _ (by omega))
        intro hmem
        obtain ⟨x, hx, hkx⟩ := List.mem_map.mp hmem
        have hxf : x ∈ as.filter (fun x => !(key x == key a)) :=
          (firstOccurrences_sublist key _).subset hx
        have := (List.mem_filter.mp hxf).2
        rw [hkx] at this
        simp at this
  exact fun l => H l.length l le_rfl

/-- C4: `logic_union` keeps, per deduplication key (id in strict mode,
normalized title key in fuzzy mode), exactly the first occurrence in
concatenation order — earlier collections win ties — every output row is a
row of the concatenated input (Track shape, no helper column), the output
is a subsequence of the concatenation, and no two output rows share a key. -/
theorem logic_union_first_wins (dfs : List (List Track)) (mode : DedupMode) :
    (∀ r ∈ logic_union dfs mode,
      dfs.flatten.find? (fun x => dedupKey mode x == dedupKey mode r) = some r)
    ∧ (logic_union dfs mode).Sublist dfs.flatten
    ∧ ((logic_union dfs mode).map (dedupKey mode)).Nodup := by
  rw [logic_union_eq_firstOccurrences]
  exact ⟨fun r hr => mem_firstOccurrences_find? (dedupKey mode) dfs.flatten r hr,
    firstOccurrences_sublist (dedupKey mode) dfs.flatten,
    firstOccurrences_keys_nodup (dedupKey mode) dfs.flatten⟩

/-- Witness for `logic_union_first_wins`: two collections sharing id "1";
the first collection's row survives and is the first id-match of the
concatenation. -/
theorem logic_union_first_wins_witness :
    ([[⟨"1", "t", "", "", ""⟩], [⟨"1", "u", "", "", ""⟩, ⟨"2", "v", "", "", ""⟩]] :
        List (List Track)).flatten.find?
      (fun x => dedupKey .strict x == dedupKey .strict (⟨"1", "t", "", "", ""⟩ : Track)) =
      some ⟨"1", "t", "", "", ""⟩ :=
  (logic_union_first_wins
      [[⟨"1", "t", "", "", ""⟩], [⟨"1", "u", "", "", ""⟩, ⟨"2", "v", "", "", ""⟩]]
      .strict).1 ⟨"1", "t", "", "", ""⟩ (by decide)

/-- C10: for every list of collections and either mode, `logic_union` is
exactly the first-occurrence subsequence of the concatenation (a row is
kept iff its key has not occurred at any earlier position), its keys are
pairwise distinct, and the union of an empty list of collections is the
empty table. -/
theorem logic_union_subsequence_spec (dfs : List (List Track))
    (mode : DedupMode) :
    logic_union dfs mode = firstOccurrences (dedupKey mode) dfs.flatten
    ∧ ((logic_union dfs mode).map (dedupKey mode)).Nodup
    ∧ logic_union ([] : List (List Track)) mode = [] := by
  refine ⟨logic_union_eq_firstOccurrences dfs mode, ?_, rfl⟩
  rw [logic_union_eq_firstOccurrences]
  exact firstOccurrences_keys_nodup (dedupKey mode) dfs.flatten

/-! ## Order lemmas for the sort relations -/

theorem lexLe_total : ∀ (a b : List Char), lexLe a b = true ∨ lexLe b a = true := by
  intro a
  induction a with
  | nil => intro b; left; rfl
  | cons x xs ih =>
    intro b
    cases b with
    | nil => right; rfl
    | cons y ys =>
      rcases lt_trichotomy x y with h | h | h
      · left; simp [lexLe, h]
      · subst h
        rcases ih ys with h2 | h2
        · left; simp [lexLe, h2]
        · right; simp [lexLe, h2]
      · right; simp [lexLe, h]

theorem lexLe_trans : ∀ (a b c : List Char),
    lexLe a b = true → lexLe b c = true → lexLe a c = true := by
  intro a
  induction a with
  | nil => intro b c _ _; rfl
  | cons x xs ih =>
    intro b c hab hbc
    cases b with
    | nil => simp [lexLe] at hab
    | cons y ys =>
      cases c with
      | nil => simp [lexLe] at hbc
      | cons z zs =>
        simp only [lexLe, Bool.or_eq_true, Bool.and_eq_true,
          decide_eq_true_eq, beq_iff_eq] at hab hbc ⊢
        rcases hab with h1 | ⟨he1, h1'⟩
        · rcases hbc with h2 | ⟨he2, h2'⟩
          · exact Or.inl (h1.trans h2)
          · exact Or.inl (he2 ▸ h1)
        · rcases hbc with h2 | ⟨he2, h2'⟩
          · exact Or.inl (by rw [he1]; exact h2)
          · exact Or.inr ⟨he1.trans he2, ih ys zs h1' h2'⟩

theorem lexLe_antisymm : ∀ (a b : List Char),
    lexLe a b = true → lexLe b a = true → a = b := by
  intro a
  induction a with
  | nil =>
    intro b hab _
    cases b with
    | nil => rfl
    | cons y ys => simp [lexLe] at *
  | cons x xs ih =>
    intro b hab hba
    cases b with
    | nil => simp [lexLe] at hab
    | cons y ys =>
      simp only [lexLe, Bool.or_eq_true, Bool.and_eq_true,
        decide_eq_true_eq, beq_iff_eq] at hab hba
      rcases hab with h1 | ⟨he1, h1'⟩
      · rcases hba with h2 | ⟨he2, h2'⟩
        · exact absurd h2 (lt_asymm h1)
        · rw [he2] at h1
          exact absurd h1 (lt_irrefl x)
      · rcases hba with h2 | ⟨he2, h2'⟩
        · rw [he1] at h2
          exact absurd h2 (lt_irrefl y)
        · rw [he1, ih ys h1' h2']

theorem rowLe_total (p q : InternalRow) : rowLe p q = true ∨ rowLe q p = true := by
  unfold rowLe
  by_cases h : p.key = q.key
  · rw [if_pos h, if_pos h.symm]
    exact lexLe_total _ _
  · rw [if_neg h, if_neg (fun he => h he.symm)]
    exact lexLe_total _ _

theorem rowLe_trans (p q r : InternalRow) (h1 : rowLe p q = true)
    (h2 : rowLe q r = true) : rowLe p r = true := by
  unfold rowLe at h1 h2 ⊢
  by_cases hpq : p.key = q.key <;> by_cases hqr : q.key = r.key
  · rw [if_pos hpq] at h1
    rw [if_pos hqr] at h2
    rw [if_pos (hpq.trans hqr)]
    exact lexLe_trans _ _ _ h1 h2
  · rw [if_pos hpq] at h1
    rw [if_neg hqr] at h2
    rw [if_neg (fun h => hqr (hpq.symm.trans h))]
    rw [hpq]
    exact h2
  · rw [if_neg hpq] at h1
    rw [if_pos hqr] at h2
    rw [if_neg (fun h => hpq (h.trans hqr.symm))]
    rw [← hqr]
    exact h1
  · rw [if_neg hpq] at h1
    rw [if_neg hqr] at h2
    by_cases hpr : p.key = r.key
    · exfalso
      rw [← hpr] at h2
      have hdata := lexLe_antisymm _ _ h1 h2
      exact hpq (String.ext hdata)
    · rw [if_neg hpr]
      exact lexLe_trans _ _ _ h1 h2

instance : IsTotal InternalRow rowLeP :=
  ⟨fun a b => rowLe_total a b⟩

instance : IsTrans InternalRow rowLeP :=
  ⟨fun a b c => rowLe_trans a b c⟩

instance : IsTotal String strLeP :=
  ⟨fun a b => lexLe_total a.data b.data⟩

instance : IsTrans String strLeP :=
  ⟨fun a b c h1 h2 => lexLe_trans a.data b.data c.data h1 h2⟩

/-! ## Claim C6: internal duplicate check -/

theorem keyRows_countP (df : List Track) (k : String) :
    (keyRows df).countP (fun q => q.1 == k) =
      df.countP (fun x => normalize_title x.title == k) := by
  unfold keyRows
  rw [List.countP_map]
  rfl

theorem internal_dupes_eq (df : List Track) :
    (keyRows df).filter
      (fun p => 2 ≤ (keyRows df).countP (fun q => q.1 == p.1)) =
    (df.filter (fun r => 2 ≤ df.countP
      (fun x => normalize_title x.title == normalize_title r.title))).map
      (fun r => (normalize_title r.title, r)) := by
  conv_lhs =>
    rw [show keyRows df = df.map (fun r => (normalize_title r.title, r)) from rfl]
  rw [List.filter_map]
  congr 1
  apply List.filter_congr
  intro r _
  show decide (2 ≤ (keyRows df).countP
      (fun q => q.1 == normalize_title r.title)) =
    decide (2 ≤ df.countP
      (fun x => normalize_title x.title == normalize_title r.title))
  rw [keyRows_countP]

/-- C6: the internal duplicate check keeps exactly the records whose
normalized title key occurs at least twice in the collection (projected to
the key/title/artist/album/duration columns), and the result is sorted
ascending by (normalized key, artist); in particular it is empty when every
key is unique. -/
theorem logic_internal_check_spec (df : List Track) :
    (logic_internal_check df).Perm
      ((df.filter (fun r => 2 ≤ df.countP
          (fun x => normalize_title x.title == normalize_title r.title))).map
        (fun r => mkInternalRow (normalize_title r.title) r))
    ∧ List.Sorted rowLeP (logic_internal_check df) := by
  have heq : logic_internal_check df =
      if ((keyRows df).filter
          (fun p => 2 ≤ (keyRows df).countP (fun q => q.1 == p.1))).isEmpty
      then []
      else (((keyRows df).filter
          (fun p => 2 ≤ (keyRows df).countP (fun q => q.1 == p.1))).map
        (fun p => mkInternalRow p.1 p.2)).insertionSort rowLeP := rfl
  have hcomp : ((fun p : String × Track => mkInternalRow p.1 p.2) ∘
      fun r : Track => (normalize_title r.title, r)) =
      fun r : Track => mkInternalRow (normalize_title r.title) r :=
    funext (fun r => rfl)
  rw [heq, internal_dupes_eq, List.map_map, hcomp]
  by_cases hc : df.filter (fun r => 2 ≤ df.countP
      (fun x => normalize_title x.title == normalize_title r.title)) = []
  · rw [hc]
    exact ⟨by simp, by simp [List.sorted_nil]⟩
  · rw [if_neg (fun h => hc (List.map_eq_nil_iff.mp (List.isEmpty_iff.mp h)))]
    exact ⟨List.perm_insertionSort rowLeP _, List.sorted_insertionSort rowLeP _⟩

/-! ## Claim C3: fuzzy intersection -/

/-- Specification-side description of one key group of the fuzzy
intersection, stated at the level of track records as the claim does: the
`'均有'` rows for the shared ids (with A's fields, from A's first matching
row), then A-only rows, then B-only rows. -/
def specFuzzyGroup (s1 s2 : String) (A B : List Track) (key : String) :
    List FuzzyRow :=
  let subA := A.filter (fun r => normalize_title r.title == key)
  let subB := B.filter (fun r => normalize_title r.title == key)
  let commonIds := ((subA.map Track.id).filter
    (fun i => (subB.map Track.id).contains i)).dedup
  commonIds.filterMap (fun sid =>
    (subA.find? (fun r => r.id == sid)).map (fun r =>
      ({ key := key, source := "均有", title := r.title, artist := r.artist,
         album := r.album, id := sid } : FuzzyRow)))
  ++ (subA.filter (fun r => !commonIds.contains r.id)).map (fun r =>
      ({ key := key, source := ("[A] " ++ s1), title := r.title,
         artist := r.artist, album := r.album, id := r.id } : FuzzyRow))
  ++ (subB.filter (fun r => !commonIds.contains r.id)).map (fun r =>
      ({ key := key, source := ("[B] " ++ s2), title := r.title,
         artist := r.artist, album := r.album, id := r.id } : FuzzyRow))

/-- Specification-side description of the fuzzy intersection rows: the
distinct common normalized keys, sorted, each expanded by
`specFuzzyGroup`. -/
def fuzzySpecRows (n1 : String) (A : List Track) (n2 : String)
    (B : List Track) : List FuzzyRow :=
  (((A.map (fun r => normalize_title r.title)).filter
    (fun k => (B.map (fun r => normalize_title r.title)).contains k)).dedup.insertionSort
      strLeP).flatMap (specFuzzyGroup (stripLabel n1) (stripLabel n2) A B)

/-- Specification-side count: the number of distinct normalized title keys
present in both collections. -/
def fuzzySpecCount (A B : List Track) : Nat :=
  ((A.map (fun r => normalize_title r.title)).filter
    (fun k => (B.map (fun r => normalize_title r.title)).contains k)).dedup.length

theorem fuzzyEmitKey_eq (s1 s2 key : String) (A B : List Track) :
    fuzzyEmitKey s1 s2 (keyRows A) (keyRows B) key =
      specFuzzyGroup s1 s2 A B key := by
  simp only [fuzzyEmitKey, specFuzzyGroup, keyRows, List.filter_map,
    List.map_map, List.find?_map, Option.map_map, Function.comp_def]

theorem fuzzyCommonKeys_eq (A B : List Track) :
    fuzzyCommonKeys (keyRows A) (keyRows B) =
      ((A.map (fun r => normalize_title r.title)).filter
        (fun k => (B.map (fun r => normalize_title r.title)).contains k)).dedup := by
  unfold fuzzyCommonKeys
  rw [keyRows_map_fst, keyRows_map_fst]

theorem logic_fuzzy_intersection_eq (n1 n2 : String) (A B : List Track) :
    logic_fuzzy_intersection n1 A n2 B =
      (fuzzySpecRows n1 A n2 B, fuzzySpecCount A B) := by
  show (if (fuzzyCommonKeys (keyRows A) (keyRows B)).isEmpty
      then (([] : List FuzzyRow), 0)
      else (((fuzzyCommonKeys (keyRows A) (keyRows B)).insertionSort
          strLeP).flatMap
        (fuzzyEmitKey (stripLabel n1) (stripLabel n2) (keyRows A) (keyRows B)),
        (fuzzyCommonKeys (keyRows A) (keyRows B)).length)) = _
  rw [fuzzyCommonKeys_eq]
  unfold fuzzySpecRows fuzzySpecCount
  by_cases hc : ((A.map (fun r => normalize_title r.title)).filter
      (fun k => (B.map (fun r => normalize_title r.title)).contains k)).dedup = []
  · rw [hc]
    simp
  · rw [if_neg (fun h => hc (List.isEmpty_iff.mp h))]
    have hfun : fuzzyEmitKey (stripLabel n1) (stripLabel n2) (keyRows A)
        (keyRows B) = specFuzzyGroup (stripLabel n1) (stripLabel n2) A B :=
      funext (fun key => fuzzyEmitKey_eq _ _ key A B)
    rw [hfun]

theorem lexLe_refl (a : List Char) : lexLe a a = true := by
  induction a with
  | nil => rfl
  | cons x xs ih => simp [lexLe, ih]

theorem mem_specFuzzyGroup_key {s1 s2 key : String} {A B : List Track}
    {row : FuzzyRow} (h : row ∈ specFuzzyGroup s1 s2 A B key) :
    row.key = key := by
  simp only [specFuzzyGroup] at h
  rcases List.mem_append.mp h with h1 | h2
  · rcases List.mem_append.mp h1 with hb | ha
    · obtain ⟨sid, _, hf⟩ := List.mem_filterMap.mp hb
      obtain ⟨r, _, hr⟩ := Option.map_eq_some'.mp hf
      rw [← hr]
    · obtain ⟨r, _, hr⟩ := List.mem_map.mp ha
      rw [← hr]
  · obtain ⟨r, _, hr⟩ := List.mem_map.mp h2
    rw [← hr]

theorem fuzzy_rows_pairwise_keys (n1 n2 : String) (A B : List Track) :
    List.Pairwise (fun p q : FuzzyRow => lexLe p.key.data q.key.data = true)
      ((logic_fuzzy_intersection n1 A n2 B).1) := by
  rw [logic_fuzzy_intersection_eq]
  show List.Pairwise _ (fuzzySpecRows n1 A n2 B)
  unfold fuzzySpecRows
  rw [List.pairwise_flatMap]
  constructor
  · intro k _
    apply List.pairwise_of_forall_mem_list
    intro x hx y hy
    rw [mem_specFuzzyGroup_key hx, mem_specFuzzyGroup_key hy]
    exact lexLe_refl _
  · have hs := List.sorted_insertionSort strLeP
      (((A.map (fun r => normalize_title r.title)).filter
        (fun k => (B.map (fun r => normalize_title r.title)).contains k)).dedup)
    refine hs.imp ?_
    intro a b hab x hx y hy
    rw [mem_specFuzzyGroup_key hx, mem_specFuzzyGroup_key hy]
    exact hab

/-- C3: the fuzzy intersection equals its specification — rows grouped by
normalized key with the distinct common keys in sorted order, and within
each key the `'均有'` rows for ids present in both collections (fields from
A's record) first, then A-only rows tagged with A's stripped label, then
B-only rows tagged with B's stripped label; the returned count is the
number of distinct normalized keys present in both collections; the key
column of the output is sorted; and when there is no common key the result
is the empty table with count 0. -/
theorem logic_fuzzy_intersection_spec (n1 n2 : String) (A B : List Track) :
    logic_fuzzy_intersection n1 A n2 B =
      (fuzzySpecRows n1 A n2 B, fuzzySpecCount A B)
    ∧ List.Pairwise (fun p q : FuzzyRow => lexLe p.key.data q.key.data = true)
        ((logic_fuzzy_intersection n1 A n2 B).1)
    ∧ (fuzzySpecCount A B = 0 → logic_fuzzy_intersection n1 A n2 B = ([], 0)) := by
  refine ⟨logic_fuzzy_intersection_eq n1 n2 A B,
    fuzzy_rows_pairwise_keys n1 n2 A B, ?_⟩
  intro h0
  rw [logic_fuzzy_intersection_eq]
  have hnil := List.length_eq_zero.mp h0
  unfold fuzzySpecRows
  rw [hnil, h0]
  rfl

/-- Witness for `logic_fuzzy_intersection_spec` at collections with no
common key, discharging the empty-case hypothesis. -/
theorem logic_fuzzy_intersection_spec_witness :
    logic_fuzzy_intersection "A" [⟨"1", "X", "ar", "al", "d"⟩] "B" [] =
      ([], 0) :=
  (logic_fuzzy_intersection_spec "A" "B" [⟨"1", "X", "ar", "al", "d"⟩] []).2.2
    (by decide)

-- Concrete checks of the model against the specification's documented
-- examples (normalization cases, identifier parsing, and one small case
-- per engine operation).
example : normalize_title "Love Song (Live)" = "love song" := by decide
example : normalize_title "晴天（钢琴版）" = "晴天" := by decide
example : normalize_title "A - Remix" = "a" := by decide
example : normalize_title "a (b) c (d)" = "a c" := by decide
example : normalize_title "(x\n(a)b)" = "(xb)" := by decide
example : normalize_title "(xb)" = "" := by decide
example : parse_id "https://music.163.com/#/playlist?id=123456&x=1" = some "123456" := by decide
example : parse_id "987" = some "987" := by decide
example : parse_id "" = none := by decide
example : parse_id "id=x id=55" = some "55" := by decide
example :
    logic_internal_check
      [⟨"1", "Song", "b", "", ""⟩, ⟨"2", "Song (Live)", "a", "", ""⟩,
       ⟨"3", "Other", "c", "", ""⟩] =
    [⟨"song", "Song (Live)", "a", "", ""⟩, ⟨"song", "Song", "b", "", ""⟩] := by
  decide
example :
    logic_fuzzy_intersection "playlist_A.csv" [⟨"1", "X", "ar", "al", ""⟩]
      "B" [⟨"2", "X", "ar2", "al2", ""⟩] =
    ([⟨"x", "[A] A", "X", "ar", "al", "1"⟩, ⟨"x", "[B] B", "X", "ar2", "al2", "2"⟩], 1) := by
  decide
example :
    logic_union [[⟨"1", "t", "", "", ""⟩], [⟨"1", "u", "", "", ""⟩, ⟨"2", "v", "", "", ""⟩]]
      .strict =
    [⟨"1", "t", "", "", ""⟩, ⟨"2", "v", "", "", ""⟩] := by decide
example :
    logic_difference [⟨"1", "t", "", "", ""⟩, ⟨"2", "u", "", "", ""⟩]
      [⟨"2", "w", "", "", ""⟩] .strict = [⟨"1", "t", "", "", ""⟩] := by decide
example :
    logic_strict_intersection
      [[⟨"1", "t", "", "", ""⟩, ⟨"2", "u", "", "", ""⟩], [⟨"2", "w", "", "", ""⟩]] =
    [⟨"2", "u", "", "", ""⟩] := by decide
